import Mathlib

/-!
Verification model of the surfaxe slab-generation orchestration layer.

The repository ships only a tutorial notebook and a README; the
`surfaxe.generation.generate_slabs` implementation itself is not part of the
checked-in sources.  The definitions below are therefore modelled from the
specification (and from the behaviour the notebook documents): the pipeline
Structure Loader → Slab Enumerator → Deduplicator → Size Guard → Output
Organizer, where geometric cleaving, symmetry and dipole classification are
delegated to an external library and appear here as abstract parameters
(`cleave`, `keep`, `equiv`, `atomCount`).
-/

namespace Surfaxe

/-- Modelled from the spec: a Miller index is a triple of small integers. -/
abbrev Miller := Int × Int × Int

/-- Modelled from the spec: a Generation Result record pairs a slab with its
generation parameters (hkl, slab thickness, vacuum thickness, termination
index).  The slab itself is a structure produced by the external library and
is abstracted by the type parameter `S`. -/
structure Record (S : Type) where
  hkl : Miller
  slab_t : Nat
  vac_t : Nat
  s_index : Nat
  slab : S
  deriving DecidableEq

/-- Miller index rendered as the concatenation of its components, e.g.
`(0,0,1)` becomes `"001"` (the `'hkl'` field of the returned dictionaries). -/
def hklString (h : Miller) : String :=
  toString h.1 ++ toString h.2.1 ++ toString h.2.2

/-- The identifier `hkl_slabThickness_vacThickness_index` used in file names
and in the duplicate warning. -/
def recordName {S : Type} (r : Record S) : String :=
  hklString r.hkl ++ "_" ++ toString r.slab_t ++ "_" ++ toString r.vac_t ++
    "_" ++ toString r.s_index

/-- Pair each element of a list with its position, starting from `n`.
Models the provisional-slab indices: `s_index` is the position of a slab in
the provisional list returned by the external cleaving call, before the
dipole/symmetry filter. -/
def indexed {S : Type} : Nat → List S → List (Nat × S)
  | _, [] => []
  | n, s :: ss => (n, s) :: indexed (n + 1) ss

/-- Modelled from the spec: the records one (hkl, thickness, vacuum)
combination contributes — the provisional slabs from the external cleaving
call `cleave`, filtered by the classification predicate `keep`
(zero-dipole, and symmetric when required), each remembering its provisional
index. -/
def combos {S : Type} (cleave : Miller → Nat → Nat → List S) (keep : S → Bool)
    (h : Miller) (t v : Nat) : List (Record S) :=
  ((indexed 0 (cleave h t v)).filter (fun p => keep p.2)).map
    (fun p => ⟨h, t, v, p.1, p.2⟩)

/-- Modelled from the spec: the Slab Enumerator iterates the Cartesian
product of the requested Miller indices, slab thicknesses and vacuum
thicknesses in input order (outer loop over hkl, then thickness, then
vacuum) and aggregates the per-combination results into one ordered
sequence.  A combination with no kept slabs contributes no records and
raises no error. -/
def enumerate {S : Type} (cleave : Miller → Nat → Nat → List S)
    (keep : S → Bool) (hkls : List Miller) (ts vs : List Nat) :
    List (Record S) :=
  hkls.flatMap (fun h => ts.flatMap (fun t => vs.flatMap (fun v =>
    combos cleave keep h t v)))

/-- Modelled from the spec: the Deduplicator walks the aggregated sequence,
keeps a record when no previously kept record has an equivalent slab (the
equivalence test `equiv` is the external library's structure comparison),
and collects the removed duplicates for the warning.  Returns
(kept records, removed records). -/
def dedupAux {S : Type} (equiv : S → S → Bool) (kept : List (Record S)) :
    List (Record S) → List (Record S) × List (Record S)
  | [] => ([], [])
  | r :: rs =>
    if kept.any (fun k => equiv k.slab r.slab) then
      ((dedupAux equiv kept rs).1, r :: (dedupAux equiv kept rs).2)
    else
      (r :: (dedupAux equiv (kept ++ [r]) rs).1,
        (dedupAux equiv (kept ++ [r]) rs).2)

/-- The deduplicated sequence: one representative per equivalence group,
preserving the first-encountered record's generation parameters. -/
def dedup {S : Type} (equiv : S → S → Bool) (l : List (Record S)) :
    List (Record S) :=
  (dedupAux equiv [] l).1

/-- The duplicates removed by the Deduplicator (reported in a warning as
`hkl_slabT_vacT_index` identifiers). -/
def removedDups {S : Type} (equiv : S → S → Bool) (l : List (Record S)) :
    List (Record S) :=
  (dedupAux equiv [] l).2

/-- Modelled from the spec: the whole in-memory pipeline behind
`generate_slabs` — enumerate all requested combinations, then deduplicate. -/
def generateSlabs {S : Type} (equiv : S → S → Bool)
    (cleave : Miller → Nat → Nat → List S) (keep : S → Bool)
    (hkls : List Miller) (ts vs : List Nat) : List (Record S) :=
  dedup equiv (enumerate cleave keep hkls ts vs)

theorem dedupAux_fst_idem {S : Type} (equiv : S → S → Bool) :
    ∀ (l kept : List (Record S)),
      (dedupAux equiv kept (dedupAux equiv kept l).1).1 =
        (dedupAux equiv kept l).1 := by
  intro l
  induction l with
  | nil => intro kept; rfl
  | cons r rs ih =>
    intro kept
    by_cases h : kept.any (fun k => equiv k.slab r.slab) = true
    · simp [dedupAux, h]
      exact ih kept
    · simp [dedupAux, h]
      rw [ih (kept ++ [r])]

/-- Claim C2: deduplication is idempotent — applying the Deduplicator twice
yields the same sequence as applying it once; on an already-deduplicated
sequence it removes nothing and changes nothing. -/
theorem dedup_idem {S : Type} (equiv : S → S → Bool)
    (l : List (Record S)) : dedup equiv (dedup equiv l) = dedup equiv l :=
  dedupAux_fst_idem equiv l []

theorem mem_indexed {S : Type} :
    ∀ (l : List S) (n i : Nat) (s : S),
      (i, s) ∈ indexed n l ↔ ∃ j, i = n + j ∧ l[j]? = some s := by
  intro l
  induction l with
  | nil =>
    intro n i s
    simp [indexed]
  | cons a l ih =>
    intro n i s
    simp only [indexed, List.mem_cons, ih, Prod.mk.injEq]
    constructor
    · rintro (⟨rfl, rfl⟩ | ⟨j, rfl, hj⟩)
      · exact ⟨0, by omega, by simp⟩
      · exact ⟨j + 1, by omega, by simpa using hj⟩
    · rintro ⟨j, rfl, hj⟩
      cases j with
      | zero =>
        left
        simp only [List.getElem?_cons_zero, Option.some.injEq] at hj
        exact ⟨by omega, hj.symm⟩
      | succ j =>
        right
        exact ⟨j, by omega, by simpa using hj⟩

theorem mem_combos {S : Type} (cleave : Miller → Nat → Nat → List S)
    (keep : S → Bool) (h : Miller) (t v : Nat) (r : Record S) :
    r ∈ combos cleave keep h t v ↔
      r.hkl = h ∧ r.slab_t = t ∧ r.vac_t = v ∧
        (cleave h t v)[r.s_index]? = some r.slab ∧ keep r.slab = true := by
  obtain ⟨rh, rt, rv, ri, rs⟩ := r
  simp only [combos, List.mem_map, List.mem_filter]
  constructor
  · rintro ⟨⟨i, s⟩, ⟨hmem, hkeep⟩, heq⟩
    rw [mem_indexed] at hmem
    obtain ⟨j, hij, hj⟩ := hmem
    cases heq
    refine ⟨rfl, rfl, rfl, ?_, hkeep⟩
    have hi : i = j := by omega
    rw [hi]
    exact hj
  · rintro ⟨h1, h2, h3, h4, h5⟩
    have g1 : rh = h := h1
    have g2 : rt = t := h2
    have g3 : rv = v := h3
    subst g1; subst g2; subst g3
    refine ⟨(ri, rs), ⟨?_, h5⟩, rfl⟩
    rw [mem_indexed]
    exact ⟨ri, by omega, h4⟩

theorem mem_enumerate {S : Type} (cleave : Miller → Nat → Nat → List S)
    (keep : S → Bool) (hkls : List Miller) (ts vs : List Nat)
    (r : Record S) :
    r ∈ enumerate cleave keep hkls ts vs ↔
      r.hkl ∈ hkls ∧ r.slab_t ∈ ts ∧ r.vac_t ∈ vs ∧
        (cleave r.hkl r.slab_t r.vac_t)[r.s_index]? = some r.slab ∧
        keep r.slab = true := by
  simp only [enumerate, List.mem_flatMap, mem_combos]
  constructor
  · rintro ⟨h, hh, t, ht, v, hv, h1, h2, h3, h4, h5⟩
    subst h1; subst h2; subst h3
    exact ⟨hh, ht, hv, h4, h5⟩
  · rintro ⟨hh, ht, hv, h4, h5⟩
    exact ⟨r.hkl, hh, r.slab_t, ht, r.vac_t, hv, rfl, rfl, rfl, h4, h5⟩

theorem dedupAux_fst_sublist {S : Type} (equiv : S → S → Bool) :
    ∀ (l kept : List (Record S)), (dedupAux equiv kept l).1.Sublist l := by
  intro l
  induction l with
  | nil => intro kept; simp [dedupAux]
  | cons r rs ih =>
    intro kept
    by_cases h : kept.any (fun k => equiv k.slab r.slab) = true
    · simp only [dedupAux, h, if_true]
      exact (ih kept).cons r
    · simp only [dedupAux, h, Bool.false_eq_true, if_false]
      exact (ih (kept ++ [r])).cons₂ r

theorem mem_of_mem_dedup {S : Type} (equiv : S → S → Bool)
    (l : List (Record S)) (x : Record S) (hx : x ∈ dedup equiv l) : x ∈ l :=
  (dedupAux_fst_sublist equiv l []).subset hx

theorem dedupAux_fst_not_equiv {S : Type} (equiv : S → S → Bool) :
    ∀ (l kept : List (Record S)) (x : Record S),
      x ∈ (dedupAux equiv kept l).1 →
        ∀ k ∈ kept, equiv k.slab x.slab = false := by
  intro l
  induction l with
  | nil =>
    intro kept x hx
    simp [dedupAux] at hx
  | cons r rs ih =>
    intro kept x hx k hk
    by_cases h : kept.any (fun p => equiv p.slab r.slab) = true
    · simp only [dedupAux, h, if_true] at hx
      exact ih kept x hx k hk
    · simp only [dedupAux, h, Bool.false_eq_true, if_false,
        List.mem_cons] at hx
      rcases hx with rfl | hx
      · cases hb : equiv k.slab x.slab with
        | false => rfl
        | true => exact absurd (List.any_eq_true.mpr ⟨k, hk, hb⟩) h
      · exact ih (kept ++ [r]) x hx k (by simp [hk])

theorem dedupAux_fst_pairwise {S : Type} (equiv : S → S → Bool) :
    ∀ (l kept : List (Record S)),
      (dedupAux equiv kept l).1.Pairwise
        (fun a b => equiv a.slab b.slab = false) := by
  intro l
  induction l with
  | nil => intro kept; simp [dedupAux]
  | cons r rs ih =>
    intro kept
    by_cases h : kept.any (fun p => equiv p.slab r.slab) = true
    · simp only [dedupAux, h, if_true]
      exact ih kept
    · simp only [dedupAux, h, Bool.false_eq_true, if_false]
      refine List.Pairwise.cons ?_ (ih (kept ++ [r]))
      intro b hb
      exact dedupAux_fst_not_equiv equiv rs (kept ++ [r]) b hb r (by simp)

/-- Claim C7: in every pipeline result (after deduplication), the identifier
tuple (hkl, slab thickness, vacuum thickness, termination index) of each
retained record is unique — no two retained records share all four
components.  The hypothesis is that the external structure-equivalence test
is reflexive. -/
theorem generate_ids_unique {S : Type} (equiv : S → S → Bool)
    (cleave : Miller → Nat → Nat → List S) (keep : S → Bool)
    (hkls : List Miller) (ts vs : List Nat)
    (hrefl : ∀ s, equiv s s = true) :
    (generateSlabs equiv cleave keep hkls ts vs).Pairwise
      (fun a b => ¬(a.hkl = b.hkl ∧ a.slab_t = b.slab_t ∧
        a.vac_t = b.vac_t ∧ a.s_index = b.s_index)) := by
  have hp := dedupAux_fst_pairwise equiv (enumerate cleave keep hkls ts vs) []
  refine hp.imp_of_mem ?_
  intro a b ha hb hne hid
  obtain ⟨h1, h2, h3, h4⟩ := hid
  have ha2 := (mem_enumerate cleave keep hkls ts vs a).mp
    (mem_of_mem_dedup equiv _ a ha)
  have hb2 := (mem_enumerate cleave keep hkls ts vs b).mp
    (mem_of_mem_dedup equiv _ b hb)
  have e1 := ha2.2.2.2.1
  have e2 := hb2.2.2.2.1
  rw [h1, h2, h3, h4] at e1
  have hslab : a.slab = b.slab := by
    have := e1.symm.trans e2
    exact Option.some.inj this
  rw [hslab, hrefl] at hne
  cases hne

/-- Claim C6: a (hkl, thickness, vacuum) combination for which no slab
passes the zero-dipole/symmetry filter contributes no records: its
per-combination result list is empty and no record in the aggregated
sequence carries its parameters.  The enumerator is a total function, so
no error is raised for such a combination. -/
theorem zero_slab_combo {S : Type} (cleave : Miller → Nat → Nat → List S)
    (keep : S → Bool) (hkls : List Miller) (ts vs : List Nat)
    (h : Miller) (t v : Nat)
    (hz : ∀ s ∈ cleave h t v, keep s = false) :
    combos cleave keep h t v = [] ∧
      ∀ r ∈ enumerate cleave keep hkls ts vs,
        ¬(r.hkl = h ∧ r.slab_t = t ∧ r.vac_t = v) := by
  constructor
  · rw [List.eq_nil_iff_forall_not_mem]
    intro r hr
    have hm := (mem_combos cleave keep h t v r).mp hr
    have hmem : r.slab ∈ cleave h t v := List.getElem?_mem hm.2.2.2.1
    rw [hz r.slab hmem] at hm
    cases hm.2.2.2.2
  · intro r hr hid
    obtain ⟨h1, h2, h3⟩ := hid
    have hm := (mem_enumerate cleave keep hkls ts vs r).mp hr
    have hget := hm.2.2.2.1
    rw [h1, h2, h3] at hget
    have hmem : r.slab ∈ cleave h t v := List.getElem?_mem hget
    have := hz r.slab hmem
    rw [hm.2.2.2.2] at this
    cases this

theorem dedup_ne_nil {S : Type} (equiv : S → S → Bool)
    (l : List (Record S)) (h : l ≠ []) : dedup equiv l ≠ [] := by
  cases l with
  | nil => exact absurd rfl h
  | cons r rs => simp [dedup, dedupAux]

/-- Modelled from the spec: the classification predicate used by the
enumerator.  For a centrosymmetric bulk the library keeps only zero-dipole
slabs that also have Laue (inversion) symmetry; surfaxe automatically
detects a non-centrosymmetric bulk and then keeps every zero-dipole slab
regardless of its space group. -/
def effectiveKeep {S : Type} (centro : Bool) (nonpolar symmetric : S → Bool) :
    S → Bool :=
  fun s => nonpolar s && (!centro || symmetric s)

/-- Claim C9: for a non-centrosymmetric bulk structure the symmetric-only
requirement is relaxed automatically: every returned slab only has to be
zero-dipole, and a zero-dipole slab found by the cleaving call for a
requested combination guarantees a non-empty result — even when no slab has
inversion symmetry. -/
theorem non_centro_relaxed {S : Type} (equiv : S → S → Bool)
    (cleave : Miller → Nat → Nat → List S)
    (nonpolar symmetric : S → Bool) (hkls : List Miller) (ts vs : List Nat)
    (h : Miller) (t v i : Nat) (s : S)
    (hh : h ∈ hkls) (ht : t ∈ ts) (hv : v ∈ vs)
    (hs : (cleave h t v)[i]? = some s) (hnp : nonpolar s = true) :
    (∀ r ∈ generateSlabs equiv cleave
        (effectiveKeep false nonpolar symmetric) hkls ts vs,
      nonpolar r.slab = true) ∧
    generateSlabs equiv cleave
        (effectiveKeep false nonpolar symmetric) hkls ts vs ≠ [] := by
  constructor
  · intro r hr
    have hm := (mem_enumerate cleave (effectiveKeep false nonpolar symmetric)
      hkls ts vs r).mp (mem_of_mem_dedup equiv _ r hr)
    have hk := hm.2.2.2.2
    simp only [effectiveKeep, Bool.not_false, Bool.true_or,
      Bool.and_true] at hk
    exact hk
  · apply dedup_ne_nil
    have hmem : (⟨h, t, v, i, s⟩ : Record S) ∈
        enumerate cleave (effectiveKeep false nonpolar symmetric)
          hkls ts vs := by
      rw [mem_enumerate]
      refine ⟨hh, ht, hv, hs, ?_⟩
      simp [effectiveKeep, hnp]
    exact List.ne_nil_of_mem hmem

/-- A dictionary value in a returned record: a string, a number, or the
slab structure itself. -/
inductive FieldVal (S : Type) where
  | str : String → FieldVal S
  | num : Nat → FieldVal S
  | slab : S → FieldVal S
  deriving DecidableEq

/-- Modelled from the spec: the dictionary surfaxe returns for each slab
when `save_slabs=False` — keys `hkl`, `slab_t`, `vac_t`, `s_index`, `slab`,
with the Miller index rendered as concatenated digits. -/
def toDict {S : Type} (r : Record S) : List (String × FieldVal S) :=
  [("hkl", FieldVal.str (hklString r.hkl)),
   ("slab_t", FieldVal.num r.slab_t),
   ("vac_t", FieldVal.num r.vac_t),
   ("s_index", FieldVal.num r.s_index),
   ("slab", FieldVal.slab r.slab)]

/-- Claim C10: every record in the list returned to the caller is a
dictionary with exactly the keys hkl, slab_t, vac_t, s_index and slab; the
hkl entry is the Miller index rendered as concatenated digits (for (0,0,1)
the string "001"), slab_t and vac_t are requested thickness and vacuum
values, s_index is the provisional termination index into the cleaving
call's list, and slab is the structure object. -/
theorem returned_record_shape {S : Type} (equiv : S → S → Bool)
    (cleave : Miller → Nat → Nat → List S) (keep : S → Bool)
    (hkls : List Miller) (ts vs : List Nat) :
    hklString (0, 0, 1) = "001" ∧
    ∀ r ∈ generateSlabs equiv cleave keep hkls ts vs,
      (toDict r).map Prod.fst =
          ["hkl", "slab_t", "vac_t", "s_index", "slab"] ∧
        (toDict r).head? = some ("hkl", FieldVal.str (hklString r.hkl)) ∧
        r.hkl ∈ hkls ∧ r.slab_t ∈ ts ∧ r.vac_t ∈ vs ∧
        (cleave r.hkl r.slab_t r.vac_t)[r.s_index]? = some r.slab := by
  refine ⟨rfl, ?_⟩
  intro r hr
  have hm := (mem_enumerate cleave keep hkls ts vs r).mp
    (mem_of_mem_dedup equiv _ r hr)
  exact ⟨rfl, rfl, hm.1, hm.2.1, hm.2.2.1, hm.2.2.2.1⟩

/-- Modelled from the spec: the Size Guard compares each retained slab's
atom count against a configurable maximum (default 500), keeps every slab,
and emits a warning naming each oversized one.  `atomCount` abstracts the
external library's site count. -/
def sizeGuard {S : Type} (max_size : Nat) (atomCount : S → Nat)
    (l : List (Record S)) : List (Record S) × List String :=
  (l, (l.filter (fun r => decide (max_size < atomCount r.slab))).map
    recordName)

/-- Claim C5: a slab whose atom count exceeds the configured maximum is
still kept in the output (exceeding the threshold never removes a slab, and
the guard is a total function, so no error is raised), and a warning
identifying the slab is emitted. -/
theorem size_guard_keeps {S : Type} (max_size : Nat) (atomCount : S → Nat)
    (l : List (Record S)) :
    (sizeGuard max_size atomCount l).1 = l ∧
      ∀ r ∈ l, max_size < atomCount r.slab →
        recordName r ∈ (sizeGuard max_size atomCount l).2 := by
  refine ⟨rfl, ?_⟩
  intro r hr hbig
  simp only [sizeGuard, List.mem_map, List.mem_filter]
  exact ⟨r, ⟨hr, by simpa using hbig⟩, rfl⟩

/-- Modelled from the spec: the Output Organizer's flags.  `save_slabs`
chooses between writing files and returning the records; `make_fols`
requests one directory per slab; `make_input_files` additionally requests
DFT input files in each slab's directory. -/
structure OutputFlags where
  save_slabs : Bool
  make_fols : Bool
  make_input_files : Bool
  deriving DecidableEq

/-- Directory for one slab under the folder layout:
`root/hkl/slabThickness_vacThickness_index`. -/
def slabFolder {S : Type} (root : String) (r : Record S) : String :=
  root ++ "/" ++ hklString r.hkl ++ "/" ++ toString r.slab_t ++ "_" ++
    toString r.vac_t ++ "_" ++ toString r.s_index

/-- The external-tool input files written per slab when
`make_input_files` is set. -/
def inputFileNames : List String := ["INCAR", "KPOINTS", "POTCAR"]

/-- Modelled from the spec: the files the Output Organizer writes for one
record.  If neither folders nor input files are requested the structure
file goes flat into the root with the deterministic name
`fmt_hkl_slabT_vacT_index`; if folder-making is requested — explicitly or
implied by input-file generation — the structure file goes into the
per-slab directory, together with the input set when requested. -/
def organizeRecord {S : Type} (flags : OutputFlags) (fmt root : String)
    (r : Record S) : List String :=
  if flags.make_fols || flags.make_input_files then
    (slabFolder root r ++ "/" ++ fmt) ::
      (if flags.make_input_files then
        inputFileNames.map (fun f => slabFolder root r ++ "/" ++ f)
      else [])
  else
    [root ++ "/" ++ fmt ++ "_" ++ recordName r]

/-- Modelled from the spec: the files the Output Organizer writes for a
result sequence (empty when `save_slabs` is off, in which case the records
are returned to the caller instead).  The organizer is a total function:
no flag combination raises an error. -/
def organize {S : Type} (flags : OutputFlags) (fmt root : String)
    (l : List (Record S)) : List String :=
  if flags.save_slabs then l.flatMap (organizeRecord flags fmt root) else []

/-- Claim C4: with `make_input_files=True` and `make_fols=False` the Output
Organizer behaves exactly as if `make_fols=True` — the same per-slab
folders and files are produced — and, being a total function, it raises no
error about the flag combination. -/
theorem make_fols_implied {S : Type} (flags : OutputFlags)
    (hin : flags.make_input_files = true) (fmt root : String)
    (l : List (Record S)) :
    organize flags fmt root l =
      organize { flags with make_fols := true } fmt root l := by
  have hrec : (organizeRecord flags fmt root : Record S → List String) =
      organizeRecord { flags with make_fols := true } fmt root := by
    funext r
    simp [organizeRecord, hin]
  simp only [organize, hrec]

/-- A configuration dictionary: an association list from setting names to
values (INCAR tags, k-point settings, …). -/
def ConfigDict (V : Type) : Type := List (String × V)

/-- Look a key up in a configuration dictionary (first binding wins). -/
def getKey {V : Type} : ConfigDict V → String → Option V
  | [], _ => none
  | (k0, v0) :: rest, k => if k0 = k then some v0 else getKey rest k

/-- Overwrite the binding of one key, appending it when absent — the
behaviour of a single python `dict` item assignment. -/
def setKey {V : Type} : ConfigDict V → String → V → ConfigDict V
  | [], k, v => [(k, v)]
  | (k0, v0) :: rest, k, v =>
    if k0 = k then (k0, v) :: rest else (k0, v0) :: setKey rest k v

/-- Modelled from the spec: python `dict.update` — fold every binding of
the override dictionary into the base dictionary, one assignment at a
time. -/
def updateDict {V : Type} (d : ConfigDict V) : ConfigDict V → ConfigDict V
  | [] => d
  | p :: o => updateDict (setKey d p.1 p.2) o

/-- Modelled from the spec: the three-layer configuration merge used when
input files are generated — the preset base dictionary, updated by any
user-supplied dictionary, updated in turn by any user-supplied explicit
settings (implicit dictionary-update chaining). -/
def mergeConfigs {V : Type} (base user explicit : ConfigDict V) :
    ConfigDict V :=
  updateDict (updateDict base user) explicit

/-- First-defined choice between two optional values, used to state the
layer-precedence rule. -/
def orElseO {V : Type} : Option V → Option V → Option V
  | some v, _ => some v
  | none, o => o

theorem getKey_setKey {V : Type} :
    ∀ (d : ConfigDict V) (k : String) (v : V) (q : String),
      getKey (setKey d k v) q = if q = k then some v else getKey d q := by
  intro d
  induction d with
  | nil =>
    intro k v q
    by_cases hq : q = k
    · simp [setKey, getKey, hq]
    · simp [setKey, getKey, hq, Ne.symm hq]
  | cons p rest ih =>
    intro k v q
    obtain ⟨k0, v0⟩ := p
    by_cases h0 : k0 = k
    · subst h0
      by_cases hq : q = k0
      · subst hq
        simp [setKey, getKey]
      · simp [setKey, getKey, hq, Ne.symm hq]
    · by_cases hq : q = k0
      · subst hq
        simp [setKey, getKey, h0, Ne.symm h0]
      · simp [setKey, getKey, h0, Ne.symm hq, ih k v q]

theorem getKey_eq_none_of_not_mem {V : Type} :
    ∀ (d : ConfigDict V) (k : String), k ∉ d.map Prod.fst →
      getKey d k = none := by
  intro d
  induction d with
  | nil => intro k _; rfl
  | cons p rest ih =>
    intro k hk
    obtain ⟨k0, v0⟩ := p
    simp only [List.map_cons, List.mem_cons] at hk
    push_neg at hk
    simp only [getKey, hk.1, if_neg (Ne.symm hk.1)]
    exact ih k hk.2

theorem getKey_updateDict {V : Type} :
    ∀ (o d : ConfigDict V) (k : String), (o.map Prod.fst).Nodup →
      getKey (updateDict d o) k = orElseO (getKey o k) (getKey d k) := by
  intro o
  induction o with
  | nil =>
    intro d k _
    rfl
  | cons p o ih =>
    intro d k hnd
    obtain ⟨k0, v0⟩ := p
    simp only [List.map_cons, List.nodup_cons] at hnd
    simp only [updateDict]
    rw [ih (setKey d k0 v0) k hnd.2]
    by_cases hq : k = k0
    · subst hq
      have ho : getKey o k = none :=
        getKey_eq_none_of_not_mem o k hnd.1
      rw [ho, getKey_setKey]
      simp only [if_pos rfl]
      have hhead : getKey ((k, v0) :: o) k = some v0 := by
        simp [getKey]
      rw [hhead]
      rfl
    · have hhead : getKey ((k0, v0) :: o) k = getKey o k := by
        simp [getKey, Ne.symm hq]
      rw [hhead, getKey_setKey]
      simp only [hq, if_false]

/-- Claim C8: the configuration dictionary used for input-file generation
is the three-layer merge with precedence preset base < user-supplied
dictionary < user-supplied explicit settings: for every key, the value is
the explicit one when present, else the user-dictionary one when present,
else the preset one.  The hypotheses say each override layer binds each of
its keys once, as a python dict does. -/
theorem merge_precedence {V : Type} (base user explicit : ConfigDict V)
    (hu : (user.map Prod.fst).Nodup) (he : (explicit.map Prod.fst).Nodup)
    (k : String) :
    getKey (mergeConfigs base user explicit) k =
      orElseO (getKey explicit k)
        (orElseO (getKey user k) (getKey base k)) := by
  unfold mergeConfigs
  rw [getKey_updateDict explicit (updateDict base user) k he,
    getKey_updateDict user base k hu]

/-- The number of slabs one (hkl, thickness, vacuum) combination keeps. -/
def keptCount {S : Type} (cleave : Miller → Nat → Nat → List S)
    (keep : S → Bool) (h : Miller) (t v : Nat) : Nat :=
  (combos cleave keep h t v).length

theorem length_enumerate {S : Type} (cleave : Miller → Nat → Nat → List S)
    (keep : S → Bool) (hkls : List Miller) (ts vs : List Nat) :
    (enumerate cleave keep hkls ts vs).length =
      (hkls.map (fun h => (ts.map (fun t => (vs.map (fun v =>
        keptCount cleave keep h t v)).sum)).sum)).sum := by
  simp only [enumerate, List.length_flatMap]
  refine congrArg List.sum (List.map_congr_left ?_)
  intro h _
  simp only [Function.comp_apply, List.length_flatMap]
  refine congrArg List.sum (List.map_congr_left ?_)
  intro t _
  simp only [Function.comp_apply, List.length_flatMap]
  refine congrArg List.sum (List.map_congr_left ?_)
  intro v _
  rfl

theorem sum_map_le {α : Type} (l : List α) (g : α → Nat) (m : Nat)
    (hle : ∀ x ∈ l, g x ≤ m) : (l.map g).sum ≤ l.length * m := by
  induction l with
  | nil => simp
  | cons a l ih =>
    simp only [List.map_cons, List.sum_cons, List.length_cons]
    have h1 := hle a (List.mem_cons_self a l)
    have h2 := ih (fun x hx => hle x (List.mem_cons_of_mem a hx))
    have h3 : (l.length + 1) * m = l.length * m + m := by ring
    omega

theorem sum_map_eq_iff {α : Type} (l : List α) (g : α → Nat) (m : Nat)
    (hle : ∀ x ∈ l, g x ≤ m) :
    ((l.map g).sum = l.length * m ↔ ∀ x ∈ l, g x = m) := by
  induction l with
  | nil => simp
  | cons a l ih =>
    simp only [List.map_cons, List.sum_cons, List.length_cons,
      List.mem_cons]
    have h1 := hle a (List.mem_cons_self a l)
    have h2 := sum_map_le l g m (fun x hx => hle x (List.mem_cons_of_mem a hx))
    have h3 := ih (fun x hx => hle x (List.mem_cons_of_mem a hx))
    have h4 : (l.length + 1) * m = l.length * m + m := by ring
    constructor
    · intro he
      have hga : g a = m := by omega
      have hs : (l.map g).sum = l.length * m := by omega
      intro x hx
      rcases hx with rfl | hx
      · exact hga
      · exact h3.mp hs x hx
    · intro hall
      have hga : g a = m := hall a (Or.inl rfl)
      have hs : (l.map g).sum = l.length * m :=
        h3.mpr (fun x hx => hall x (Or.inr hx))
      omega

/-- Claim C1 (amended): when every requested (hkl, thickness, vacuum)
combination keeps at most one zero-dipole termination, the number of
records after deduplication is at most |hkl set| × |thicknesses| ×
|vacuums|, and equals that product exactly when deduplication removes
nothing and every combination keeps exactly one termination (in
particular none keeps zero). -/
theorem generate_count_bound {S : Type} (equiv : S → S → Bool)
    (cleave : Miller → Nat → Nat → List S) (keep : S → Bool)
    (hkls : List Miller) (ts vs : List Nat)
    (hone : ∀ h ∈ hkls, ∀ t ∈ ts, ∀ v ∈ vs,
      keptCount cleave keep h t v ≤ 1) :
    (generateSlabs equiv cleave keep hkls ts vs).length ≤
        hkls.length * (ts.length * vs.length) ∧
      ((generateSlabs equiv cleave keep hkls ts vs).length =
          hkls.length * (ts.length * vs.length) ↔
        (generateSlabs equiv cleave keep hkls ts vs).length =
            (enumerate cleave keep hkls ts vs).length ∧
          ∀ h ∈ hkls, ∀ t ∈ ts, ∀ v ∈ vs,
            keptCount cleave keep h t v = 1) := by
  have hsubl : (generateSlabs equiv cleave keep hkls ts vs).length ≤
      (enumerate cleave keep hkls ts vs).length :=
    (dedupAux_fst_sublist equiv (enumerate cleave keep hkls ts vs) []).length_le
  have hv1 : ∀ h ∈ hkls, ∀ t ∈ ts,
      (vs.map (fun v => keptCount cleave keep h t v)).sum ≤ vs.length := by
    intro h hh t ht
    have := sum_map_le vs (fun v => keptCount cleave keep h t v) 1
      (fun v hv => hone h hh t ht v hv)
    simpa using this
  have ht1 : ∀ h ∈ hkls,
      (ts.map (fun t =>
        (vs.map (fun v => keptCount cleave keep h t v)).sum)).sum ≤
        ts.length * vs.length := by
    intro h hh
    exact sum_map_le ts _ vs.length (fun t ht => hv1 h hh t ht)
  have hh1 : (hkls.map (fun h => (ts.map (fun t =>
      (vs.map (fun v => keptCount cleave keep h t v)).sum)).sum)).sum ≤
        hkls.length * (ts.length * vs.length) :=
    sum_map_le hkls _ (ts.length * vs.length) ht1
  have hE := length_enumerate cleave keep hkls ts vs
  have hEiff : (enumerate cleave keep hkls ts vs).length =
      hkls.length * (ts.length * vs.length) ↔
      ∀ h ∈ hkls, ∀ t ∈ ts, ∀ v ∈ vs, keptCount cleave keep h t v = 1 := by
    rw [hE]
    rw [sum_map_eq_iff hkls _ (ts.length * vs.length) ht1]
    constructor
    · intro hall h hh t ht v hv
      have hmid := hall h hh
      have hts := (sum_map_eq_iff ts _ vs.length
        (fun t2 ht2 => hv1 h hh t2 ht2)).mp hmid
      have hinner := hts t ht
      have hvs := (sum_map_eq_iff vs (fun v2 => keptCount cleave keep h t v2)
        1 (fun v2 hv2 => hone h hh t ht v2 hv2)).mp (by simpa using hinner)
      exact hvs v hv
    · intro hall h hh
      rw [sum_map_eq_iff ts _ vs.length (fun t2 ht2 => hv1 h hh t2 ht2)]
      intro t ht
      have hvs : (vs.map (fun v => keptCount cleave keep h t v)).sum =
          vs.length * 1 := by
        rw [sum_map_eq_iff vs _ 1 (fun v2 hv2 => hone h hh t ht v2 hv2)]
        exact fun v hv => hall h hh t ht v hv
      simpa using hvs
  refine ⟨?_, ?_⟩
  · calc (generateSlabs equiv cleave keep hkls ts vs).length ≤
        (enumerate cleave keep hkls ts vs).length := hsubl
    _ = _ := hE
    _ ≤ hkls.length * (ts.length * vs.length) := hh1
  · constructor
    · intro hGP
      have hEge : (enumerate cleave keep hkls ts vs).length ≤
          hkls.length * (ts.length * vs.length) := by
        rw [hE]; exact hh1
      have hEP : (enumerate cleave keep hkls ts vs).length =
          hkls.length * (ts.length * vs.length) := by omega
      exact ⟨by omega, hEiff.mp hEP⟩
    · rintro ⟨hGE, hall⟩
      have := hEiff.mpr hall
      omega

/-- A cleave stub where every combination has two distinct kept
terminations. -/
def twoTermCleave : Miller → Nat → Nat → List Nat := fun _ _ _ => [0, 1]

/-- A cleave stub where every combination has exactly one kept
termination. -/
def oneTermCleave : Miller → Nat → Nat → List Nat := fun _ _ _ => [0]

/-- Natural-number structure labels compared by equality, standing in for
the external structure-equivalence test in concrete instances. -/
def natEquiv : Nat → Nat → Bool := fun a b => a == b

/-- Claim C1 (counterexample): with one Miller index, one thickness and one
vacuum, a surface with two distinct zero-dipole terminations yields two
records — more than |hkl set| × |thicknesses| × |vacuums| = 1 — although
no duplicate is removed and no combination yields zero slabs, refuting
both the stated bound and the stated equality condition. -/
theorem generate_count_bound_cex :
    removedDups natEquiv
        (enumerate twoTermCleave (fun _ => true) [(0, 0, 1)] [20] [20]) =
        [] ∧
      keptCount twoTermCleave (fun _ => true) (0, 0, 1) 20 20 ≠ 0 ∧
      (generateSlabs natEquiv twoTermCleave (fun _ => true)
          [(0, 0, 1)] [20] [20]).length = 2 ∧
      ¬((generateSlabs natEquiv twoTermCleave (fun _ => true)
          [(0, 0, 1)] [20] [20]).length ≤
        ([(0, 0, 1)] : List Miller).length *
          (([20] : List Nat).length * ([20] : List Nat).length)) := by
  decide

theorem generate_count_bound_witness :
    (generateSlabs natEquiv oneTermCleave (fun _ => true)
        [(0, 0, 1)] [20] [30]).length ≤
        ([(0, 0, 1)] : List Miller).length *
          (([20] : List Nat).length * ([30] : List Nat).length) ∧
      ((generateSlabs natEquiv oneTermCleave (fun _ => true)
          [(0, 0, 1)] [20] [30]).length =
          ([(0, 0, 1)] : List Miller).length *
            (([20] : List Nat).length * ([30] : List Nat).length) ↔
        (generateSlabs natEquiv oneTermCleave (fun _ => true)
            [(0, 0, 1)] [20] [30]).length =
            (enumerate oneTermCleave (fun _ => true)
              [(0, 0, 1)] [20] [30]).length ∧
          ∀ h ∈ ([(0, 0, 1)] : List Miller), ∀ t ∈ ([20] : List Nat),
            ∀ v ∈ ([30] : List Nat),
            keptCount oneTermCleave (fun _ => true) h t v = 1) :=
  generate_count_bound natEquiv oneTermCleave (fun _ => true)
    [(0, 0, 1)] [20] [30] (by decide)

/-- Modelled from the spec: the documented reference run on the fixed
Y2Ti2S2O5 bulk structure is encoded through a class label per
(thickness, vacuum) combination — the documented duplicate warning shows
that requesting 40 Å of slab reproduces the 30 Å slab and requesting 40 Å
of vacuum reproduces the 30 Å vacuum cell. -/
def refClass (t v : Nat) : Nat × Nat :=
  (if t = 40 then 30 else t, if v = 40 then 30 else v)

/-- Modelled from the spec: provisional slabs of the reference structure —
five provisional terminations per combination, of which only the one at
provisional index 4 is symmetric and zero-dipole (`none` marks a polar
termination the filter discards). -/
def refCleave : Miller → Nat → Nat → List (Option (Nat × Nat)) :=
  fun _ t v => [none, none, none, none, some (refClass t v)]

/-- Keep exactly the symmetric zero-dipole terminations of the reference
run. -/
def refKeep : Option (Nat × Nat) → Bool := Option.isSome

/-- Structure equivalence of the reference run: equality of class labels. -/
def refEquiv : Option (Nat × Nat) → Option (Nat × Nat) → Bool :=
  fun a b => a == b

/-- Claim C3: on the reference bulk structure with hkl=(0,0,1),
thicknesses=[20,30,40] and vacuums=[20,30,40,50], 12 provisional records
are generated, exactly 6 records remain after deduplication, and the 6
removed provisional combinations are exactly the documented duplicates
001_20_40_4, 001_30_40_4, 001_40_20_4, 001_40_30_4, 001_40_40_4 and
001_40_50_4. -/
theorem reference_run :
    (enumerate refCleave refKeep [(0, 0, 1)] [20, 30, 40]
        [20, 30, 40, 50]).length = 12 ∧
      (generateSlabs refEquiv refCleave refKeep [(0, 0, 1)] [20, 30, 40]
        [20, 30, 40, 50]).length = 6 ∧
      (removedDups refEquiv (enumerate refCleave refKeep [(0, 0, 1)]
          [20, 30, 40] [20, 30, 40, 50])).map recordName =
        ["001_20_40_4", "001_30_40_4", "001_40_20_4", "001_40_30_4",
          "001_40_40_4", "001_40_50_4"] := by
  decide

/-- A concrete record for the organizer witness. -/
def sampleRec : Record Nat := ⟨(0, 0, 1), 20, 20, 4, 7⟩

theorem make_fols_implied_witness :
    organize ⟨true, false, true⟩ "POSCAR" "Y2Ti2S2O5" [sampleRec] =
      organize ⟨true, true, true⟩ "POSCAR" "Y2Ti2S2O5" [sampleRec] :=
  make_fols_implied ⟨true, false, true⟩ rfl "POSCAR" "Y2Ti2S2O5"
    [sampleRec]

/-- An oversized record: atom counts are the structure labels themselves
here, and 600 exceeds the default maximum of 500. -/
def bigRec : Record Nat := ⟨(0, 0, 1), 20, 20, 4, 600⟩

theorem size_guard_keeps_witness :
    (sizeGuard 500 (fun n => n) [bigRec]).1 = [bigRec] ∧
      recordName bigRec ∈ (sizeGuard 500 (fun n => n) [bigRec]).2 :=
  ⟨(size_guard_keeps 500 (fun n => n) [bigRec]).1,
    (size_guard_keeps 500 (fun n => n) [bigRec]).2 bigRec (by decide)
      (by decide)⟩

/-- A cleave stub whose only termination is polar, so the filter keeps
nothing. -/
def noKeepCleave : Miller → Nat → Nat → List Nat := fun _ _ _ => [5]

theorem zero_slab_combo_witness :
    combos noKeepCleave (fun _ => false) (0, 0, 1) 20 20 = [] :=
  (zero_slab_combo noKeepCleave (fun _ => false) [(0, 0, 1)] [20] [20]
    (0, 0, 1) 20 20 (by decide)).1

theorem generate_ids_unique_witness :
    (generateSlabs natEquiv twoTermCleave (fun _ => true)
        [(0, 0, 1)] [20] [20]).Pairwise
      (fun a b => ¬(a.hkl = b.hkl ∧ a.slab_t = b.slab_t ∧
        a.vac_t = b.vac_t ∧ a.s_index = b.s_index)) :=
  generate_ids_unique natEquiv twoTermCleave (fun _ => true)
    [(0, 0, 1)] [20] [20] (fun s => by simp [natEquiv])

/-- A cleave stub for the non-centrosymmetric witness: one zero-dipole,
non-symmetric termination. -/
def polarFreeCleave : Miller → Nat → Nat → List Nat := fun _ _ _ => [9]

theorem non_centro_relaxed_witness :
    generateSlabs natEquiv polarFreeCleave
        (effectiveKeep false (fun _ => true) (fun _ => false))
        [(0, 0, 1)] [20] [30] ≠ [] :=
  (non_centro_relaxed natEquiv polarFreeCleave (fun _ => true)
      (fun _ => false) [(0, 0, 1)] [20] [30] (0, 0, 1) 20 30 0 9
      (by decide) (by decide) (by decide) (by decide) (by decide)).2

/-- Demonstration dictionaries: preset base, user dictionary and explicit
settings all bind ENCUT. -/
def demoBase : ConfigDict Nat := [("ENCUT", 400), ("NSW", 0)]

/-- The user-supplied dictionary of the demonstration merge. -/
def demoUser : ConfigDict Nat := [("ENCUT", 450), ("ISIF", 2)]

/-- The explicit user settings of the demonstration merge. -/
def demoExplicit : ConfigDict Nat := [("ENCUT", 520)]

theorem merge_precedence_witness :
    getKey (mergeConfigs demoBase demoUser demoExplicit) "ENCUT" =
      orElseO (getKey demoExplicit "ENCUT")
        (orElseO (getKey demoUser "ENCUT") (getKey demoBase "ENCUT")) :=
  merge_precedence demoBase demoUser demoExplicit (by decide) (by decide)
    "ENCUT"

/-- A cleave stub for the record-shape witness. -/
def dictCleave : Miller → Nat → Nat → List Nat := fun _ _ _ => [3]

theorem returned_record_shape_witness :
    hklString (0, 0, 1) = "001" ∧
      (toDict (⟨(0, 0, 1), 20, 30, 0, 3⟩ : Record Nat)).map Prod.fst =
        ["hkl", "slab_t", "vac_t", "s_index", "slab"] := by
  refine ⟨(returned_record_shape natEquiv dictCleave (fun _ => true)
      [(0, 0, 1)] [20] [30]).1, ?_⟩
  have h2 := (returned_record_shape natEquiv dictCleave (fun _ => true)
      [(0, 0, 1)] [20] [30]).2 ⟨(0, 0, 1), 20, 30, 0, 3⟩ (by decide)
  exact h2.1

end Surfaxe
